import Mathlib

/-!
Verification of the imaging core of the opencv-game-engine repository.

The development shallowly embeds, in Lean, the C sources under `src/`:

* `src/median_blur.c`: an in-place Hoare-style partition (`partition`),
  quicksort (`quick_sort`), the derived order-statistic queries
  (`lower_quartile`, `median`, `upper_quartile`) and the sliding-window
  `median_blur` filter over a single-channel frame.
* `src/calibration.c`: `in_box`, `overlay_frame`, `final_calibration`,
  `generic_calibration` and the `calibrate` acquisition loop.

Modelling conventions:

* `unsigned char *` buffers are modelled as total maps `ℕ → ℕ`; a read of a
  `char` into an `unsigned char` context is modelled with `% 256`.
* C `while`/recursion whose termination is a theorem (not structural) is
  modelled with an explicit fuel argument returning `Option`; `none` means
  the fuel bound was exhausted.  Termination claims then become `isSome`
  facts at the stated fuel.
* Calls into external collaborators (OpenCV capture/display) are modelled as
  function parameters or, where the spec fixes their meaning, as explicit
  definitions marked as modelled from the spec.
* IEEE-754 double arithmetic in `final_calibration` is modelled exactly:
  doubles are the dyadic rationals produced by `roundRat`, which rounds a
  positive rational to 53 significant bits, ties to even.
-/

namespace MedianBlur

/-- Byte-array state: `unsigned char *` modelled as a total map from index to
stored value. -/
abbrev Arr := ℕ → ℕ

/-- Store `v` at index `i` (array update). -/
def write (a : Arr) (i v : ℕ) : Arr := fun k => if k = i then v else a k

/-- Embeds `swap` from `src/median_blur.c`: exchange the entries at `i` and
`j`. -/
def swap (a : Arr) (i j : ℕ) : Arr :=
  fun k => if k = i then a j else if k = j then a i else a k

/-- Structural core of the forward scan: `steps` counts the indices still
inside the `i <= right` bound, so the test `a i ≤ pivot` is only made while
`i ≤ right` (the C `&&` short-circuit). -/
def scanUpAux (a : Arr) (pivot : ℕ) : ℕ → ℕ → ℕ
  | 0, i => i
  | steps + 1, i => if a i ≤ pivot then scanUpAux a pivot steps (i + 1) else i

/-- Embeds the forward scan of `partition`:
`for (; i <= right && array_list[i] <= pivot; i++);`. -/
def scanUp (a : Arr) (pivot right i : ℕ) : ℕ :=
  scanUpAux a pivot (right + 1 - i) i

/-- Embeds the backward scan of `partition`:
`for (; array_list[j] > pivot; j--);`.  In the C function the scan is
guaranteed to stop at index `left`, where the pivot itself lives; the model
additionally stops at index 0 (where the C code would read below the array,
which never happens for the sentinel-respecting states `partition`
produces). -/
def scanDown (a : Arr) (pivot : ℕ) : ℕ → ℕ
  | 0 => 0
  | j + 1 => if pivot < a (j + 1) then scanDown a pivot j else j + 1

/-- Embeds the `while (i < j)` loop of `partition`, with an explicit fuel
bound on the number of iterations; `none` means the fuel ran out before the
loop exited. -/
def partitionLoop (pivot right : ℕ) : ℕ → Arr → ℕ → ℕ → Option (Arr × ℕ)
  | 0, a, i, j => if i < j then none else some (a, j)
  | fuel + 1, a, i, j =>
    if i < j then
      if scanUp a pivot right i < scanDown a pivot j then
        partitionLoop pivot right fuel
          (swap a (scanUp a pivot right i) (scanDown a pivot j))
          (scanUp a pivot right i) (scanDown a pivot j)
      else some (a, scanDown a pivot j)
    else some (a, j)

/-- Embeds `partition` from `src/median_blur.c`: Hoare-style partition of
`a[left..right]` around the pivot `a[left]`; returns the final array and the
split index.  The fuel `2*(right-left)+1` dominates the loop's iteration
count (each iteration strictly decreases `2*(j-i) + [pivot < a i]`). -/
def partition (a : Arr) (left right : ℕ) : Option (Arr × ℕ) :=
  match partitionLoop (a left) right (2 * (right - left) + 1) a left right with
  | none => none
  | some (a', j) => some (swap a' left j, j)

/-- Embeds `quick_sort` from `src/median_blur.c`, with fuel bounding the
recursion depth.  The C recursion `quick_sort(a, left, j-1)` at `j = 0`
compares `0 < -1` over `int`; the model's truncated `j - 1 = 0` compares
`0 < 0`, which is likewise false. -/
def quick_sort : ℕ → Arr → ℕ → ℕ → Option Arr
  | 0, a, left, right => if left < right then none else some a
  | fuel + 1, a, left, right =>
    if left < right then
      (partition a left right).bind fun p =>
        (quick_sort fuel p.1 left (p.2 - 1)).bind fun a'' =>
          quick_sort fuel a'' (p.2 + 1) right
    else some a

/-- Embeds `lower_quartile`: full sort, then index `(n-1)/4`. -/
def lower_quartile (a : Arr) (n : ℕ) : Option ℕ :=
  (quick_sort n a 0 (n - 1)).map fun s => s ((n - 1) / 4)

/-- Embeds `median`: full sort, then index `(n-1)/2`. -/
def median (a : Arr) (n : ℕ) : Option ℕ :=
  (quick_sort n a 0 (n - 1)).map fun s => s ((n - 1) / 2)

/-- Embeds `upper_quartile`: full sort, then index `3*(n-1)/4`. -/
def upper_quartile (a : Arr) (n : ℕ) : Option ℕ :=
  (quick_sort n a 0 (n - 1)).map fun s => s (3 * (n - 1) / 4)

/-- View a Lean list as a byte array (out-of-range reads default to 0; all
in-contract accesses stay in range). -/
def asFun (l : List ℕ) : Arr := fun k => l.getD k 0

/-- The index range `[lo, hi)` of `a` holds a permutation of the same range
of `b` (the in-place algorithms only rearrange the range they work on). -/
def permIco (a b : Arr) (lo hi : ℕ) : Prop :=
  ((List.Ico lo hi).map a).Perm ((List.Ico lo hi).map b)

/-- The entries of `a` are sorted ascending on the closed index range
`[lo, hi]`. -/
def sortedOn (a : Arr) (lo hi : ℕ) : Prop :=
  ∀ k k', lo ≤ k → k ≤ k' → k' ≤ hi → a k ≤ a k'

end MedianBlur

/-- Embeds the frame data model (OpenCV `IplImage` as used by the sources):
width, height, channel count, per-row stride `widthStep`, and the raw byte
storage `imageData` as a total map from byte offset to stored byte. -/
structure IplImage where
  width : ℕ
  height : ℕ
  nChannels : ℕ
  widthStep : ℕ
  imageData : MedianBlur.Arr

namespace MedianBlur

/-- Embeds `#define BLUR_RADIUS 5`. -/
def BLUR_RADIUS : ℕ := 5

/-- Embeds `int num_offsets = 2 * BLUR_RADIUS + 1;`. -/
def num_offsets : ℕ := 2 * BLUR_RADIUS + 1

/-- Embeds `int num_elements = num_offsets * num_offsets;`, the declared size
of the stack buffer `array_list`. -/
def num_elements : ℕ := num_offsets * num_offsets

/-- The `(yo, xo)` iteration sequence of the sample-gathering loops in
`median_blur`.  The C loops are `for (yo = 0; yo <= num_offsets; yo++)` and
`for (xo = 0; xo <= num_offsets; xo++)` — both bounds INCLUSIVE, so each
index runs over the 12 values `0..num_offsets`. -/
def windowPairs : List (ℕ × ℕ) :=
  (List.range (num_offsets + 1)).flatMap fun yo =>
    (List.range (num_offsets + 1)).map fun xo => (yo, xo)

/-- Embeds the gathering loops of `median_blur` for the pixel `(x, y)`:
sequential stores
`array_list[num_offsets*yo + xo] = imageData[(y+yo-BLUR_RADIUS)*widthStep + x+xo-BLUR_RADIUS]`
into the scratch buffer (modelled as a flat map, so the out-of-bounds stores
at indices `num_elements..132` land inertly beyond the buffer).  Reading the
`char` data into the `unsigned char` buffer is `% 256`. -/
def gather (data : Arr) (widthStep x y : ℕ) (scratch : Arr) : Arr :=
  windowPairs.foldl
    (fun arr p =>
      write arr (num_offsets * p.1 + p.2)
        (data ((y + p.1 - BLUR_RADIUS) * widthStep + (x + p.2 - BLUR_RADIUS)) % 256))
    scratch

/-- The call `median(array_list, num_elements)` inside `median_blur`: sorts
the scratch buffer in place and returns the sorted buffer together with the
selected value.  The fuel `num_elements` provably suffices (see
`quick_sort_complete`), so the fallback branch is unreachable. -/
def med121 (a : Arr) : Arr × ℕ :=
  match quick_sort num_elements a 0 (num_elements - 1) with
  | some s => (s, s ((num_elements - 1) / 2))
  | none => (a, 0)

/-- One iteration of the pixel loops of `median_blur` at pixel `(y, x)`:
gather the window into the scratch buffer, take its median, and overwrite
the pixel in place.  State is `(frame bytes, scratch buffer)`. -/
def blurStep (widthStep : ℕ) (st : Arr × Arr) (pos : ℕ × ℕ) : Arr × Arr :=
  let g := gather st.1 widthStep pos.2 pos.1 st.2
  let m := med121 g
  (write st.1 (pos.1 * widthStep + pos.2) m.2, m.1)

/-- The row-major interior pixel sequence of `median_blur`:
`y` from `BLUR_RADIUS` to `height - BLUR_RADIUS - 1` (outer), `x` likewise
(inner). -/
def interiorPixels (frame : IplImage) : List (ℕ × ℕ) :=
  (List.Ico BLUR_RADIUS (frame.height - BLUR_RADIUS)).flatMap fun y =>
    (List.Ico BLUR_RADIUS (frame.width - BLUR_RADIUS)).map fun x => (y, x)

/-- Outcome of `median_blur`: either the fatal channel-count diagnostic
(`fprintf` + `exit`), carrying the reported actual and required counts and
the untouched frame, or the filtered frame. -/
inductive BlurResult where
  | fatal (actual required : ℕ) (frame : IplImage)
  | ok (frame : IplImage)

/-- Embeds `median_blur` from `src/median_blur.c`.  A frame whose channel
count is not 1 hits the fatal diagnostic before any pixel is touched.
Otherwise the interior pixels are processed in row-major order, in place:
each step reads the current (partially overwritten) frame bytes.  The
scratch buffer starts unconstrained in C (stack garbage); it is modelled as
all zeroes, which is unobservable because every buffer index the median
reads is overwritten by the gather. -/
def median_blur (frame : IplImage) : BlurResult :=
  if frame.nChannels ≠ 1 then .fatal frame.nChannels 1 frame
  else
    let st := (interiorPixels frame).foldl (blurStep frame.widthStep)
      (frame.imageData, fun _ => 0)
    .ok { frame with imageData := st.1 }

end MedianBlur

namespace Calibration

open MedianBlur (Arr write)

/-- Embeds `in_box` from `src/calibration.c`: strict box membership, where
`width`/`height` are half-extents measured from the centre. -/
def in_box (x y box_x box_y width height : ℤ) : Bool :=
  box_x - width < x && x < box_x + width && box_y - height < y && y < box_y + height

/-- The channel loop of `overlay_frame` at pixel base offset `base`: each
listed channel byte is replaced by `(unsigned char)(byte) / 4` (the read of
the `char` datum is `% 256`, then integer division by 4). -/
def chanWrites (base : ℕ) (ws : List ℕ) (d : Arr) : Arr :=
  ws.foldl (fun d w => write d (base + w) (d (base + w) % 256 / 4)) d

/-- The inner `x` loop of `overlay_frame` over row `y`: pixels outside the
box get their channels darkened, pixels inside are skipped. -/
def rowWrites (s c : ℕ) (reg_x reg_y regw regh : ℤ) (y : ℕ) (xs : List ℕ) (d : Arr) : Arr :=
  xs.foldl (fun d (x : ℕ) =>
    if !(in_box (x : ℤ) (y : ℤ) reg_x reg_y regw regh) then
      chanWrites (y * s + x * c) (List.range c) d
    else d) d

/-- The outer `y` loop of `overlay_frame`. -/
def allWrites (width s c : ℕ) (reg_x reg_y regw regh : ℤ) (ys : List ℕ) (d : Arr) : Arr :=
  ys.foldl (fun d y => rowWrites s c reg_x reg_y regw regh y (List.range width) d) d

/-- Embeds `overlay_frame` from `src/calibration.c`: sequentially over `y`
(outer loop), `x`, then channel `w`, every pixel `(x, y)` outside the box
has each channel byte at offset `y*widthStep + x*nChannels + w` divided by
4 in place. -/
def overlay_frame (frame : IplImage) (reg_x reg_y reg_height reg_width : ℤ) : IplImage :=
  { frame with
      imageData := allWrites frame.width frame.widthStep frame.nChannels reg_x reg_y
        reg_width reg_height (List.range frame.height) frame.imageData }

/-- The list of integers `lo, lo+1, ..., hi-1` (a half-open interval over
`ℤ`, as iterated by the C `for` loops of `final_calibration`). -/
def intRange (lo hi : ℤ) : List ℤ :=
  List.map (fun k : ℕ => lo + (k : ℤ)) (List.range (hi - lo).toNat)

/-- Embeds the sampling loops of `final_calibration` for channel `c`:
row-major over `y ∈ [reg_y - reg_height, reg_y + reg_height)` and
`x ∈ [reg_x - reg_width, reg_x + reg_width)`, reading
`imageData[y*widthStep + x*nChannels + c]` into an `unsigned char` container
(`% 256`).  A byte offset that is negative in C (region escaping the frame)
is undefined behaviour; the model truncates it to 0 via `Int.toNat`. -/
def sample_channel (frame : IplImage) (reg_x reg_y reg_height reg_width : ℤ) (c : ℕ) : List ℕ :=
  (intRange (reg_y - reg_height) (reg_y + reg_height)).flatMap fun y =>
    (intRange (reg_x - reg_width) (reg_x + reg_width)).map fun x =>
      frame.imageData (y * (frame.widthStep : ℤ) + x * (frame.nChannels : ℤ) + (c : ℤ)).toNat % 256

/-- Modelled from the spec: `avg` (declared in this repository outside
`src/`) computes the arithmetic mean of the sample container; the value is
stored into an `unsigned char` bound, truncating toward zero, hence the
floor of the mean.  On the empty container the C computation divides by
zero; the model returns 0. -/
def avg (l : List ℕ) : ℕ := l.sum / l.length

/-- 2^52, the low mantissa bound of an IEEE-754 double. -/
def P52 : ℕ := 4503599627370496

/-- 2^53, the high mantissa bound of an IEEE-754 double. -/
def P53 : ℕ := 9007199254740992

/-- Scale the numerator up by powers of 2 (fuel-bounded) until
`P52 * den ≤ num`; returns the scaled numerator and the number of
doublings. -/
def upN (b : ℕ) : ℕ → ℕ → ℕ × ℕ
  | 0, a => (a, 0)
  | fuel + 1, a =>
    if a < P52 * b then
      match upN b fuel (2 * a) with
      | (a', s) => (a', s + 1)
    else (a, 0)

/-- Scale the denominator up by powers of 2 (fuel-bounded) until
`num < P53 * den`; returns the scaled denominator and the number of
doublings. -/
def dnN (a : ℕ) : ℕ → ℕ → ℕ × ℕ
  | 0, b => (b, 0)
  | fuel + 1, b =>
    if P53 * b ≤ a then
      match dnN a fuel (2 * b) with
      | (b', s) => (b', s + 1)
    else (b, 0)

/-- Round the positive rational `a / b` to the nearest IEEE-754 double (53
significant bits, round to nearest, ties to even), exactly.  Nonnegative
rationals are represented as numerator/denominator pairs of naturals.  The
scaled significand `a₁ / b₁` lies in `[2^52, 2^53)`; it is rounded to an
integer `m` (ties to even) and the result is the exact dyadic rational
`(m * 2^t) / 2^s`. -/
def rnd53 (a b : ℕ) : ℕ × ℕ :=
  if a = 0 then (0, 1)
  else
    match upN b 1200 a with
    | (a₁, s) =>
      match dnN a₁ 1200 b with
      | (b₁, t) =>
        let quo := a₁ / b₁
        let r := a₁ % b₁
        let m : ℕ :=
          if b₁ < 2 * r then quo + 1
          else if 2 * r < b₁ then quo
          else if quo % 2 = 0 then quo else quo + 1
        (m * 2 ^ t, 2 ^ s)

/-- The double constant `range = 0.4` of `final_calibration` (0.4 is not a
dyadic rational, so the stored double is the nearest one). -/
def range04 : ℕ × ℕ := rnd53 2 5

/-- The double `1 - range` as computed by `final_calibration`
(`1 = range04.2 / range04.2`, so the exact difference is
`(range04.2 - range04.1) / range04.2`, then rounded as every IEEE
operation is). -/
def oneMinusRange : ℕ × ℕ := rnd53 (range04.2 - range04.1) range04.2

/-- The double `1 + range` as computed by `final_calibration`. -/
def onePlusRange : ℕ × ℕ := rnd53 (range04.2 + range04.1) range04.2

/-- Conversion of a nonnegative double to `unsigned char`: truncation toward
zero (the floor `p.1 / p.2`).  Beyond 255 the C conversion is undefined
behaviour; the spec attests that the reference stores the truncated value
into the 8-bit bound without clamping, so the model wraps with `% 256` (the
behaviour of the reference platform). -/
def uchar_of_double (p : ℕ × ℕ) : ℕ := p.1 / p.2 % 256

/-- The lower band edge: `c->X_min = c->X_max * (1 - range)` with
`c->X_max` holding the channel mean; double multiplication (exact product,
then rounding to double) followed by the `unsigned char` store. -/
def band_min (mean : ℕ) : ℕ :=
  uchar_of_double (rnd53 (mean * oneMinusRange.1) oneMinusRange.2)

/-- The upper band edge: `c->X_max *= 1 + range` with `c->X_max` holding the
channel mean; double multiplication followed by the `unsigned char`
store. -/
def band_max (mean : ℕ) : ℕ :=
  uchar_of_double (rnd53 (mean * onePlusRange.1) onePlusRange.2)

/-- Embeds `calibration_t` from `src/calibration.c`.  The `CvScalar`
rendering vectors hold the three min (resp. max) bounds; only their three
used components are modelled. -/
structure calibration_t where
  h_max : ℕ
  h_min : ℕ
  s_max : ℕ
  s_min : ℕ
  v_max : ℕ
  v_min : ℕ
  done : Bool
  upper : ℕ × ℕ × ℕ
  lower : ℕ × ℕ × ℕ

/-- Embeds `final_calibration` from `src/calibration.c`: sample the three
channels over the region, take each channel's mean (`avg`, modelled from the
spec), and derive the band edges with tolerance 0.4.  `standard_dev` is
called on each container but its result is unused (the spec documents it as
a dead computation); as a pure statistic it does not affect the means, so it
is omitted. -/
def final_calibration (frame : IplImage) (reg_x reg_y reg_height reg_width : ℤ) : calibration_t :=
  let h_mean := avg (sample_channel frame reg_x reg_y reg_height reg_width 0)
  let s_mean := avg (sample_channel frame reg_x reg_y reg_height reg_width 1)
  let v_mean := avg (sample_channel frame reg_x reg_y reg_height reg_width 2)
  { h_max := band_max h_mean
    h_min := band_min h_mean
    s_max := band_max s_mean
    s_min := band_min s_mean
    v_max := band_max v_mean
    v_min := band_min v_mean
    done := true
    lower := (band_min h_mean, band_min s_mean, band_min v_mean)
    upper := (band_max h_mean, band_max s_mean, band_max v_mean) }

/-- Embeds `generic_calibration` from `src/calibration.c`: fixed literal
bounds; the rendering vectors are not assigned there and keep their previous
values. -/
def generic_calibration (c : calibration_t) : calibration_t :=
  { c with h_max := 25, h_min := 0, s_max := 150, s_min := 10, v_max := 255, v_min := 60,
           done := true }

/-- Modelled from the spec: the display collaborator's
`mirrorHorizontal(frame)` (`cvFlip(frame, frame, 1)`), reflecting each row's
pixels; bytes beyond the pixel area of a row are left as they are. -/
def flipH (f : IplImage) : IplImage :=
  { f with imageData := fun off =>
      let y := off / f.widthStep
      let xc := off % f.widthStep
      if xc < f.width * f.nChannels then
        f.imageData (y * f.widthStep + (f.width - 1 - xc / f.nChannels) * f.nChannels
          + xc % f.nChannels)
      else f.imageData off }

/-- The loop state of `calibrate`: the frame pointer (overwritten by every
`cvQueryFrame`, possibly with NULL) and the four region parameters. -/
structure CalibState where
  frame : Option IplImage
  reg_x : ℕ
  reg_y : ℕ
  reg_height : ℕ
  reg_width : ℕ

/-- Embeds the acquisition loop of `calibrate`.  `calibration->done` is
false throughout the loop (it is only set afterwards), so the condition
`(cvWaitKey(10) != 'q' || calibration->done) && timer < 90` reduces to
`key != 'q' && timer < 90`; `keyq t` tells whether the t-th key poll
returned `'q'`, and `capture t` is the t-th `cvQueryFrame` result.  On a
non-NULL frame the region is fixed once (`reg_x == 0` test), the overlay is
drawn and the frame mirrored for display. -/
def calibrate_loop (capture : ℕ → Option IplImage) (keyq : ℕ → Bool)
    (timer : ℕ) (st : CalibState) : CalibState :=
  if keyq timer = false ∧ timer < 90 then
    calibrate_loop capture keyq (timer + 1)
      (match capture timer with
       | none => { st with frame := none }
       | some fr =>
         let rx := if st.reg_x = 0 then fr.width / 2 else st.reg_x
         let ry := if st.reg_x = 0 then fr.height / 2 else st.reg_y
         let rh := if st.reg_x = 0 then fr.height / 20 else st.reg_height
         let rw := if st.reg_x = 0 then fr.width / 20 else st.reg_width
         { frame := some (flipH (overlay_frame fr (rx : ℤ) (ry : ℤ) (rh : ℤ) (rw : ℤ)))
           reg_x := rx, reg_y := ry, reg_height := rh, reg_width := rw })
  else st
termination_by 90 - timer
decreasing_by omega

/-- Embeds `calibrate` from `src/calibration.c`.  After the loop the code
unconditionally runs `cvCvtColor(frame, frame, CV_BGR2HSV)` and
`final_calibration` — with no check that a frame was ever acquired.  The
external colour conversion is a parameter `bgr2hsv`.  When the loop ends
with `frame == NULL` the C code passes NULL to `cvCvtColor` (undefined
behaviour / crash); the model marks that path as `none`.  There is no error
report of any kind on that path in the source. -/
def calibrate (bgr2hsv : IplImage → IplImage) (capture : ℕ → Option IplImage)
    (keyq : ℕ → Bool) : Option calibration_t :=
  match calibrate_loop capture keyq 0 ⟨none, 0, 0, 0, 0⟩ with
  | ⟨none, _, _, _, _⟩ => none
  | ⟨some f, rx, ry, rh, rw⟩ =>
    some (final_calibration (bgr2hsv f) (rx : ℤ) (ry : ℤ) (rh : ℤ) (rw : ℤ))

end Calibration

/-! ## Helper lemmas: swap, scans, range permutations -/

namespace MedianBlur

theorem write_same (a : Arr) (i v : ℕ) : write a i v i = v := by
  simp [write]

theorem write_other (a : Arr) (i v k : ℕ) (h : k ≠ i) : write a i v k = a k := by
  simp [write, h]

theorem swap_left (a : Arr) (i j : ℕ) : swap a i j i = a j := by
  simp [swap]

theorem swap_right (a : Arr) (i j : ℕ) : swap a i j j = a i := by
  unfold swap
  by_cases h : j = i
  · subst h; simp
  · simp [h]

theorem swap_other (a : Arr) (i j k : ℕ) (h1 : k ≠ i) (h2 : k ≠ j) : swap a i j k = a k := by
  simp [swap, h1, h2]

theorem swap_self (a : Arr) (i k : ℕ) : swap a i i k = a k := by
  unfold swap
  by_cases h : k = i
  · subst h; simp
  · simp [h]

theorem scanUpAux_ge (a : Arr) (p : ℕ) :
    ∀ steps i, i ≤ scanUpAux a p steps i := by
  intro steps
  induction steps with
  | zero => intro i; rw [scanUpAux]
  | succ n ih =>
    intro i
    rw [scanUpAux]
    by_cases hc : a i ≤ p
    · rw [if_pos hc]
      have := ih (i + 1)
      omega
    · rw [if_neg hc]

theorem scanUp_ge (a : Arr) (p r i : ℕ) : i ≤ scanUp a p r i :=
  scanUpAux_ge a p (r + 1 - i) i

theorem scanUp_advance (a : Arr) (p r i : ℕ) (h1 : i ≤ r) (h2 : a i ≤ p) :
    i + 1 ≤ scanUp a p r i := by
  unfold scanUp
  obtain ⟨f, hf⟩ : ∃ f, r + 1 - i = f + 1 := ⟨r - i, by omega⟩
  rw [hf, scanUpAux, if_pos h2]
  exact scanUpAux_ge a p f (i + 1)

theorem scanUpAux_below (a : Arr) (p : ℕ) :
    ∀ steps i k, i ≤ k → k < scanUpAux a p steps i → a k ≤ p := by
  intro steps
  induction steps with
  | zero =>
    intro i k h1 h2
    rw [scanUpAux] at h2
    omega
  | succ n ih =>
    intro i k h1 h2
    rw [scanUpAux] at h2
    by_cases hc : a i ≤ p
    · rw [if_pos hc] at h2
      rcases Nat.eq_or_lt_of_le h1 with heq | hlt
      · exact heq ▸ hc
      · exact ih (i + 1) k hlt h2
    · rw [if_neg hc] at h2
      omega

theorem scanUp_below (a : Arr) (p r i : ℕ) :
    ∀ k, i ≤ k → k < scanUp a p r i → a k ≤ p :=
  fun k h1 h2 => scanUpAux_below a p (r + 1 - i) i k h1 h2

theorem scanUpAux_stop (a : Arr) (p r : ℕ) :
    ∀ steps i, i + steps = r + 1 →
      scanUpAux a p steps i ≤ r → p < a (scanUpAux a p steps i) := by
  intro steps
  induction steps with
  | zero =>
    intro i hsum hle
    rw [scanUpAux] at hle ⊢
    omega
  | succ n ih =>
    intro i hsum hle
    rw [scanUpAux] at hle ⊢
    by_cases hc : a i ≤ p
    · rw [if_pos hc] at hle ⊢
      exact ih (i + 1) (by omega) hle
    · rw [if_neg hc] at hle ⊢
      omega

theorem scanUp_stop (a : Arr) (p r i : ℕ) :
    scanUp a p r i ≤ r → p < a (scanUp a p r i) := by
  unfold scanUp
  by_cases hir : i ≤ r
  · exact scanUpAux_stop a p r (r + 1 - i) i (by omega)
  · have h0 : r + 1 - i = 0 := by omega
    rw [h0, scanUpAux]
    omega

theorem scanDown_le (a : Arr) (p : ℕ) : ∀ j, scanDown a p j ≤ j := by
  intro j
  induction j with
  | zero => simp [scanDown]
  | succ n ih =>
    rw [scanDown]
    split
    · omega
    · omega

theorem scanDown_above (a : Arr) (p : ℕ) :
    ∀ j k, scanDown a p j < k → k ≤ j → p < a k := by
  intro j
  induction j with
  | zero => intro k h1 h2; omega
  | succ n ih =>
    intro k h1 h2
    rw [scanDown] at h1
    by_cases hc : p < a (n + 1)
    · rw [if_pos hc] at h1
      rcases Nat.eq_or_lt_of_le h2 with heq | hlt
      · exact heq ▸ hc
      · exact ih k h1 (by omega)
    · rw [if_neg hc] at h1
      omega

theorem scanDown_sentinel (a : Arr) (p : ℕ) :
    ∀ j s, s ≤ j → a s ≤ p → s ≤ scanDown a p j ∧ a (scanDown a p j) ≤ p := by
  intro j
  induction j with
  | zero =>
    intro s h1 h2
    have hs0 : s = 0 := by omega
    subst hs0
    exact ⟨Nat.zero_le _, by simpa [scanDown] using h2⟩
  | succ n ih =>
    intro s h1 h2
    rw [scanDown]
    by_cases hc : p < a (n + 1)
    · rw [if_pos hc]
      have hs : s ≤ n := by
        rcases Nat.eq_or_lt_of_le h1 with heq | hlt
        · exfalso; rw [heq] at h2; omega
        · omega
      exact ih s hs h2
    · rw [if_neg hc]
      exact ⟨h1, by omega⟩

end MedianBlur

namespace MedianBlur

theorem permIco_refl (a : Arr) (lo hi : ℕ) : permIco a a lo hi := List.Perm.refl _

theorem permIco_of_eqOn (a b : Arr) (lo hi : ℕ)
    (h : ∀ k, lo ≤ k → k < hi → a k = b k) : permIco a b lo hi := by
  unfold permIco
  have : (List.Ico lo hi).map a = (List.Ico lo hi).map b := by
    apply List.map_congr_left
    intro k hk
    exact h k (List.Ico.mem.mp hk).1 (List.Ico.mem.mp hk).2
  rw [this]

theorem permIco_trans {a b c : Arr} {lo hi : ℕ}
    (h1 : permIco a b lo hi) (h2 : permIco b c lo hi) : permIco a c lo hi :=
  List.Perm.trans h1 h2

theorem swap_comm (a : Arr) (u v k : ℕ) : swap a u v k = swap a v u k := by
  unfold swap
  by_cases h1 : k = u
  · subst h1
    by_cases h2 : k = v
    · subst h2; simp
    · simp [h2]
  · by_cases h2 : k = v
    · subst h2; simp [h1]
    · simp [h1, h2]

theorem permIco_swap_lt (a : Arr) (u v lo hi : ℕ)
    (hu1 : lo ≤ u) (hv2 : v < hi) (huv : u < v) :
    permIco (swap a u v) a lo hi := by
  unfold permIco
  have hsplit : List.Ico lo hi
      = List.Ico lo u ++ [u] ++ List.Ico (u + 1) v ++ [v] ++ List.Ico (v + 1) hi := by
    have e1 : List.Ico lo (u + 1) = List.Ico lo u ++ [u] := List.Ico.succ_top hu1
    have h1 : List.Ico lo (u + 1) ++ List.Ico (u + 1) v = List.Ico lo v :=
      List.Ico.append_consecutive (by omega) (by omega)
    have h2 : List.Ico lo v ++ List.Ico v (v + 1) = List.Ico lo (v + 1) :=
      List.Ico.append_consecutive (by omega) (by omega)
    have h3 : List.Ico lo (v + 1) ++ List.Ico (v + 1) hi = List.Ico lo hi :=
      List.Ico.append_consecutive (by omega) (by omega)
    have h4 : List.Ico v (v + 1) = [v] := by
      rw [List.Ico.succ_top (le_refl v), List.Ico.self_empty, List.nil_append]
    rw [← h3, ← h2, ← h1, e1, h4]
  rw [hsplit]
  simp only [List.map_append, List.map_cons, List.map_nil]
  have eA : (List.Ico lo u).map (swap a u v) = (List.Ico lo u).map a := by
    apply List.map_congr_left
    intro k hk
    have := List.Ico.mem.mp hk
    exact swap_other a u v k (by omega) (by omega)
  have eB : (List.Ico (u + 1) v).map (swap a u v) = (List.Ico (u + 1) v).map a := by
    apply List.map_congr_left
    intro k hk
    have := List.Ico.mem.mp hk
    exact swap_other a u v k (by omega) (by omega)
  have eC : (List.Ico (v + 1) hi).map (swap a u v) = (List.Ico (v + 1) hi).map a := by
    apply List.map_congr_left
    intro k hk
    have := List.Ico.mem.mp hk
    exact swap_other a u v k (by omega) (by omega)
  rw [eA, eB, eC, swap_left, swap_right]
  simp only [List.append_assoc, List.cons_append, List.nil_append, List.singleton_append]
  apply List.Perm.append_left
  have p1 : (List.map a (List.Ico (u + 1) v) ++ a u :: List.map a (List.Ico (v + 1) hi)).Perm
      (a u :: (List.map a (List.Ico (u + 1) v) ++ List.map a (List.Ico (v + 1) hi))) :=
    List.perm_middle
  have p2 := List.Perm.cons (a v) p1
  have p3 := List.Perm.swap (a u) (a v)
      (List.map a (List.Ico (u + 1) v) ++ List.map a (List.Ico (v + 1) hi))
  have p4 := List.Perm.cons (a u)
    (@List.perm_middle ℕ (a v) (List.map a (List.Ico (u + 1) v))
      (List.map a (List.Ico (v + 1) hi))).symm
  exact (p2.trans p3).trans p4

theorem permIco_swap (a : Arr) (u v lo hi : ℕ)
    (hu1 : lo ≤ u) (hu2 : u < hi) (hv1 : lo ≤ v) (hv2 : v < hi) :
    permIco (swap a u v) a lo hi := by
  rcases Nat.lt_trichotomy u v with huv | huv | huv
  · exact permIco_swap_lt a u v lo hi hu1 hv2 huv
  · subst huv
    exact permIco_of_eqOn _ _ _ _ fun k _ _ => swap_self a u k
  · exact permIco_trans
      (permIco_of_eqOn _ _ _ _ fun k _ _ => swap_comm a u v k)
      (permIco_swap_lt a v u lo hi hv1 hu2 huv)

end MedianBlur

namespace MedianBlur

/-- Invariant-carrying specification of the `while (i < j)` loop of
`partition`: starting from a state respecting the loop invariants (pivot
sentinel at `lo`, everything left of `i` at most the pivot, everything right
of `j` above it, range permutation, outside range untouched) with enough
fuel, the loop exits with a split index `j'` such that `a'[lo..j']` is at
most the pivot and `a'(j'..r]` is above it. -/
theorem partitionLoop_spec (p r lo : ℕ) (a0 : Arr) :
    ∀ fuel a i j,
      a lo = p →
      lo ≤ i → lo ≤ j → j ≤ r →
      (∀ k, lo ≤ k → k < i → a k ≤ p) →
      (∀ k, j < k → k ≤ r → p < a k) →
      (∀ k, k < lo ∨ r < k → a k = a0 k) →
      permIco a a0 lo (r + 1) →
      i < j →
      2 * (j - i) + (if p < a i then 1 else 0) ≤ fuel →
      ∃ a' j', partitionLoop p r fuel a i j = some (a', j') ∧
        a' lo = p ∧ lo ≤ j' ∧ j' ≤ r ∧
        (∀ k, lo ≤ k → k ≤ j' → a' k ≤ p) ∧
        (∀ k, j' < k → k ≤ r → p < a' k) ∧
        (∀ k, k < lo ∨ r < k → a' k = a0 k) ∧
        permIco a' a0 lo (r + 1) := by
  intro fuel
  induction fuel with
  | zero =>
    intro a i j _ _ _ _ _ _ _ _ hij hfuel
    exfalso
    by_cases hc : p < a i
    · rw [if_pos hc] at hfuel; omega
    · rw [if_neg hc] at hfuel; omega
  | succ fuel ih =>
    intro a i j hsent hloi hloj hjr hD hE hF hperm hij hfuel
    simp only [partitionLoop]
    rw [if_pos hij]
    set i' := scanUp a p r i with hi'def
    set j' := scanDown a p j with hj'def
    have hii' : i ≤ i' := scanUp_ge a p r i
    have hDext : ∀ k, lo ≤ k → k < i' → a k ≤ p := by
      intro k h1 h2
      by_cases hk : k < i
      · exact hD k h1 hk
      · exact scanUp_below a p r i k (by omega) h2
    have hj'j : j' ≤ j := scanDown_le a p j
    have hsent' : lo ≤ j' ∧ a j' ≤ p :=
      scanDown_sentinel a p j lo hloj (le_of_eq hsent)
    have hEext : ∀ k, j' < k → k ≤ r → p < a k := by
      intro k h1 h2
      by_cases hk : k ≤ j
      · exact scanDown_above a p j k h1 hk
      · exact hE k (by omega) h2
    by_cases hij' : i' < j'
    · rw [if_pos hij']
      have hi'r : i' ≤ r := by omega
      have hpai' : p < a i' := scanUp_stop a p r i hi'r
      have hloi' : lo < i' := by
        rcases Nat.lt_or_ge lo i' with h | h
        · exact h
        · exfalso
          have heq : i' = lo := by omega
          rw [heq, hsent] at hpai'
          omega
      have hloj' : lo < j' := by omega
      have hswlo : swap a i' j' lo = p := by
        rw [swap_other a i' j' lo (by omega) (by omega)]; exact hsent
      have hswD : ∀ k, lo ≤ k → k < i' → swap a i' j' k ≤ p := by
        intro k h1 h2
        rw [swap_other a i' j' k (by omega) (by omega)]
        exact hDext k h1 h2
      have hswE : ∀ k, j' < k → k ≤ r → p < swap a i' j' k := by
        intro k h1 h2
        rw [swap_other a i' j' k (by omega) (by omega)]
        exact hEext k h1 h2
      have hswF : ∀ k, k < lo ∨ r < k → swap a i' j' k = a0 k := by
        intro k hk
        rw [swap_other a i' j' k (by omega) (by omega)]
        exact hF k hk
      have hswperm : permIco (swap a i' j') a0 lo (r + 1) :=
        permIco_trans
          (permIco_swap a i' j' lo (r + 1) (by omega) (by omega) (by omega) (by omega))
          hperm
      have hswi' : swap a i' j' i' ≤ p := by
        rw [swap_left]; exact hsent'.2
      have hmeas : 2 * (j' - i') + (if p < swap a i' j' i' then 1 else 0) ≤ fuel := by
        rw [if_neg (show ¬ p < swap a i' j' i' by omega), add_zero]
        by_cases hc : p < a i
        · rw [if_pos hc] at hfuel; omega
        · rw [if_neg hc] at hfuel
          have hadv : i + 1 ≤ i' := scanUp_advance a p r i (by omega) (by omega)
          omega
      exact ih (swap a i' j') i' j' hswlo (by omega) (by omega) (by omega)
        hswD hswE hswF hswperm hij' hmeas
    · rw [if_neg hij']
      refine ⟨a, j', rfl, hsent, hsent'.1, by omega, ?_, hEext, hF, hperm⟩
      intro k h1 h2
      rcases Nat.eq_or_lt_of_le h2 with heq | hlt
      · exact heq ▸ hsent'.2
      · exact hDext k h1 (by omega)

end MedianBlur

namespace MedianBlur

/-- Full specification of `partition` on a range `lo ≤ r`: it succeeds,
returns a split index inside the range, places the original pivot `a lo`
there, with everything to its left (inside the range) at most it and
everything to its right above it; the range is permuted and everything
outside is untouched. -/
theorem partition_spec (a : Arr) (lo r : ℕ) (h : lo ≤ r) :
    ∃ a' j, partition a lo r = some (a', j) ∧ lo ≤ j ∧ j ≤ r ∧
      a' j = a lo ∧
      (∀ k, lo ≤ k → k < j → a' k ≤ a' j) ∧
      (∀ k, j < k → k ≤ r → a' j < a' k) ∧
      (∀ k, k < lo ∨ r < k → a' k = a k) ∧
      permIco a' a lo (r + 1) := by
  rcases Nat.eq_or_lt_of_le h with heq | hlt
  · subst heq
    refine ⟨swap a lo lo, lo, ?_, le_refl lo, le_refl lo, swap_self a lo lo, ?_, ?_, ?_, ?_⟩
    · unfold partition
      simp [partitionLoop]
    · intro k h1 h2; omega
    · intro k h1 h2; omega
    · intro k _; exact swap_self a lo k
    · exact permIco_of_eqOn _ _ _ _ fun k _ _ => swap_self a lo k
  · have hmeas : 2 * (r - lo) + (if a lo < a lo then 1 else 0) ≤ 2 * (r - lo) + 1 := by
      rw [if_neg (lt_irrefl _)]; omega
    obtain ⟨a1, j, hloop, hsent, hloj, hjr, hD, hE, hF, hperm⟩ :=
      partitionLoop_spec (a lo) r lo a (2 * (r - lo) + 1) a lo r rfl (le_refl lo)
        (le_of_lt hlt) (le_refl r)
        (fun k h1 h2 => absurd h2 (by omega)) (fun k h1 h2 => absurd h2 (by omega))
        (fun k _ => rfl) (permIco_refl a lo (r + 1)) hlt hmeas
    have hpivot : swap a1 lo j j = a lo := by rw [swap_right]; exact hsent
    refine ⟨swap a1 lo j, j, ?_, hloj, hjr, hpivot, ?_, ?_, ?_, ?_⟩
    · unfold partition
      rw [hloop]
    · intro k h1 h2
      rw [hpivot]
      by_cases hk : k = lo
      · subst hk
        rw [swap_left]
        exact hD j hloj (le_refl j)
      · rw [swap_other a1 lo j k hk (by omega)]
        exact hD k h1 (by omega)
    · intro k h1 h2
      rw [hpivot, swap_other a1 lo j k (by omega) (by omega)]
      exact hE k h1 h2
    · intro k hk
      rw [swap_other a1 lo j k (by omega) (by omega)]
      exact hF k hk
    · exact permIco_trans
        (permIco_swap a1 lo j lo (r + 1) (le_refl lo) (by omega) hloj (by omega)) hperm

end MedianBlur

namespace MedianBlur

/-- A permutation on a subrange, unchanged elsewhere, lifts to a permutation
on any enclosing range. -/
theorem permIco_lift (a b : Arr) (lo' hi' lo hi : ℕ)
    (hll : lo ≤ lo') (hhh : hi' ≤ hi) (hlh : lo' ≤ hi')
    (hperm : permIco a b lo' hi')
    (hout : ∀ k, k < lo' ∨ hi' ≤ k → a k = b k) :
    permIco a b lo hi := by
  unfold permIco at *
  have hsplit : List.Ico lo hi = List.Ico lo lo' ++ List.Ico lo' hi' ++ List.Ico hi' hi := by
    rw [List.Ico.append_consecutive hll hlh, List.Ico.append_consecutive (le_trans hll hlh) hhh]
  rw [hsplit]
  simp only [List.map_append]
  apply List.Perm.append
  · apply List.Perm.append
    · have : (List.Ico lo lo').map a = (List.Ico lo lo').map b := by
        apply List.map_congr_left
        intro k hk
        exact hout k (Or.inl (List.Ico.mem.mp hk).2)
      rw [this]
    · exact hperm
  · have : (List.Ico hi' hi).map a = (List.Ico hi' hi).map b := by
      apply List.map_congr_left
      intro k hk
      exact hout k (Or.inr (List.Ico.mem.mp hk).1)
    rw [this]

/-- An empty or singleton range makes `quick_sort` return immediately, with
any fuel. -/
theorem quick_sort_base (fuel : ℕ) (a : Arr) (lo r : ℕ) (h : ¬ lo < r) :
    quick_sort fuel a lo r = some a := by
  cases fuel <;> simp [quick_sort, h]

/-- Full specification of `quick_sort`: with fuel exceeding the range
length it succeeds, sorts the range in place, permutes it, and leaves
everything outside untouched. -/
theorem quick_sort_spec :
    ∀ fuel a (lo r : ℕ), (lo < r → r - lo < fuel) →
      ∃ a', quick_sort fuel a lo r = some a' ∧ sortedOn a' lo r ∧
        (∀ k, k < lo ∨ r < k → a' k = a k) ∧ permIco a' a lo (r + 1) := by
  intro fuel
  induction fuel with
  | zero =>
    intro a lo r hfuel
    have hlr : ¬ lo < r := fun h => by have := hfuel h; omega
    refine ⟨a, quick_sort_base 0 a lo r hlr, ?_, fun k _ => rfl, permIco_refl a lo (r + 1)⟩
    intro k k' h1 h2 h3
    have hkk : k = k' := by omega
    rw [hkk]
  | succ fuel ih =>
    intro a lo r hfuel
    by_cases hlr : lo < r
    · obtain ⟨a1, j, hpart, hloj, hjr, hpiv, hD, hE, hF, hperm⟩ :=
        partition_spec a lo r (le_of_lt hlr)
      obtain ⟨a2, hq1, hsort1, hout1, hperm1⟩ := ih a1 lo (j - 1) (by omega)
      obtain ⟨a3, hq2, hsort2, hout2, hperm2⟩ := ih a2 (j + 1) r (by omega)
      have hcomp : quick_sort (fuel + 1) a lo r = some a3 := by
        rw [quick_sort, if_pos hlr, hpart]
        simp only [Option.some_bind]
        rw [hq1]
        simp only [Option.some_bind]
        exact hq2
      -- a2 agrees with a1 at и above j
      have ha2eq : ∀ k, j ≤ k → a2 k = a1 k := by
        by_cases hj0 : j = 0
        · subst hj0
          have hlo0 : lo = 0 := by omega
          subst hlo0
          have hbase : quick_sort fuel a1 0 (0 - 1) = some a1 :=
            quick_sort_base fuel a1 0 (0 - 1) (by omega)
          rw [hbase] at hq1
          injection hq1 with h12
          intro k _
          rw [← h12]
        · intro k hk
          exact hout1 k (Or.inr (by omega))
      have hjval3 : a3 j = a1 j := by
        rw [hout2 j (Or.inl (by omega))]
        exact ha2eq j (le_refl j)
      have hleft : ∀ k, lo ≤ k → k < j → a3 k ≤ a1 j := by
        intro k h1 h2
        have e1 : a3 k = a2 k := hout2 k (Or.inl (by omega))
        have hperm1' : permIco a2 a1 lo j := by
          have hj1 : j - 1 + 1 = j := by omega
          rw [← hj1]; exact hperm1
        have hmem : a2 k ∈ (List.Ico lo j).map a1 := by
          apply hperm1'.mem_iff.mp
          exact List.mem_map_of_mem a2 (List.Ico.mem.mpr ⟨h1, h2⟩)
        obtain ⟨k0, hk0mem, hk0eq⟩ := List.mem_map.mp hmem
        have hk0 := List.Ico.mem.mp hk0mem
        rw [e1, ← hk0eq]
        exact hD k0 hk0.1 hk0.2
      have hright : ∀ k, j < k → k ≤ r → a1 j < a3 k := by
        intro k h1 h2
        have hmem : a3 k ∈ (List.Ico (j + 1) (r + 1)).map a2 := by
          apply hperm2.mem_iff.mp
          exact List.mem_map_of_mem a3 (List.Ico.mem.mpr ⟨by omega, by omega⟩)
        obtain ⟨k0, hk0mem, hk0eq⟩ := List.mem_map.mp hmem
        have hk0 := List.Ico.mem.mp hk0mem
        rw [← hk0eq, ha2eq k0 (by omega)]
        exact hE k0 (by omega) (by omega)
      refine ⟨a3, hcomp, ?_, ?_, ?_⟩
      · -- sortedness on [lo, r]
        intro k k' h1 h2 h3
        rcases Nat.lt_trichotomy k' j with hk'j | hk'j | hk'j
        · have e1 : a3 k = a2 k := hout2 k (Or.inl (by omega))
          have e2 : a3 k' = a2 k' := hout2 k' (Or.inl (by omega))
          rw [e1, e2]
          exact hsort1 k k' h1 h2 (by omega)
        · subst hk'j
          rcases Nat.eq_or_lt_of_le h2 with heq | hlt
          · rw [heq]
          · rw [hjval3]
            exact hleft k h1 hlt
        · rcases Nat.lt_trichotomy k j with hkj | hkj | hkj
          · exact le_of_lt (lt_of_le_of_lt (hleft k h1 hkj) (hright k' hk'j h3))
          · subst hkj
            rw [hjval3]
            exact le_of_lt (hright k' hk'j h3)
          · exact hsort2 k k' (by omega) h2 h3
      · -- outside the range untouched
        intro k hk
        have e1 : a3 k = a2 k := by
          rcases hk with hk | hk
          · exact hout2 k (Or.inl (by omega))
          · exact hout2 k (Or.inr (by omega))
        have e2 : a2 k = a1 k := by
          rcases hk with hk | hk
          · exact hout1 k (Or.inl hk)
          · exact hout1 k (Or.inr (by omega))
        rw [e1, e2]
        exact hF k hk
      · -- range permutation
        have hp1 : permIco a2 a1 lo (r + 1) := by
          by_cases hj0 : j = 0
          · subst hj0
            apply permIco_of_eqOn
            intro k _ _
            exact ha2eq k (Nat.zero_le k)
          · apply permIco_lift a2 a1 lo j lo (r + 1) (le_refl lo) (by omega) (by omega)
            · have hj1 : j - 1 + 1 = j := by omega
              rw [← hj1]; exact hperm1
            · intro k hk
              rcases hk with hk | hk
              · exact hout1 k (Or.inl hk)
              · exact ha2eq k hk
        have hp2 : permIco a3 a2 lo (r + 1) := by
          apply permIco_lift a3 a2 (j + 1) (r + 1) lo (r + 1) (by omega) (le_refl _) (by omega)
          · exact hperm2
          · intro k hk
            rcases hk with hk | hk
            · exact hout2 k (Or.inl hk)
            · exact hout2 k (Or.inr (by omega))
        exact permIco_trans (permIco_trans hp2 hp1) hperm
    · refine ⟨a, quick_sort_base (fuel + 1) a lo r hlr, ?_, fun k _ => rfl,
        permIco_refl a lo (r + 1)⟩
      intro k k' h1 h2 h3
      have hkk : k = k' := by omega
      rw [hkk]

end MedianBlur

namespace MedianBlur

theorem asFun_map_range : ∀ l : List ℕ, (List.range l.length).map (asFun l) = l := by
  intro l
  induction l with
  | nil => rfl
  | cons x xs ih =>
    have hcomp : (List.range xs.length).map (asFun (x :: xs) ∘ Nat.succ) = xs := by
      have hfun : asFun (x :: xs) ∘ Nat.succ = asFun xs := funext fun k => rfl
      rw [hfun, ih]
    rw [List.length_cons, List.range_succ_eq_map, List.map_cons, List.map_map, hcomp]
    rfl

/-- On a nonempty list, `quick_sort` over the whole index range succeeds and
produces exactly the ascending sort of the list. -/
theorem quick_sort_sorts (l : List ℕ) (h : l ≠ []) :
    ∃ s, quick_sort l.length (asFun l) 0 (l.length - 1) = some s ∧
      (List.range l.length).map s = l.insertionSort (· ≤ ·) := by
  have hn : 0 < l.length := List.length_pos.mpr h
  obtain ⟨s, hq, hsort, hout, hperm⟩ :=
    quick_sort_spec l.length (asFun l) 0 (l.length - 1) (by omega)
  refine ⟨s, hq, ?_⟩
  have hn1 : l.length - 1 + 1 = l.length := by omega
  have hperm' : ((List.range l.length).map s).Perm l := by
    unfold permIco at hperm
    rw [hn1, List.Ico.zero_bot, asFun_map_range] at hperm
    exact hperm
  have hs1 : List.Sorted (· ≤ ·) ((List.range l.length).map s) := by
    apply List.pairwise_iff_getElem.mpr
    intro i j hi hj hij
    simp only [List.getElem_map, List.getElem_range]
    have hj' : j < l.length := by simpa using hj
    exact hsort i j (Nat.zero_le i) (le_of_lt hij) (by omega)
  have hs2 : List.Sorted (· ≤ ·) (l.insertionSort (· ≤ ·)) :=
    List.sorted_insertionSort (· ≤ ·) l
  exact List.eq_of_perm_of_sorted (hperm'.trans (List.perm_insertionSort _ l).symm) hs1 hs2

/-- Each derived query of a nonempty container returns the stated index of
the ascending sort of its contents. -/
theorem queries_eq_sorted_getD (l : List ℕ) (h : l ≠ []) :
    lower_quartile (asFun l) l.length
      = some ((l.insertionSort (· ≤ ·)).getD ((l.length - 1) / 4) 0) ∧
    median (asFun l) l.length
      = some ((l.insertionSort (· ≤ ·)).getD ((l.length - 1) / 2) 0) ∧
    upper_quartile (asFun l) l.length
      = some ((l.insertionSort (· ≤ ·)).getD (3 * (l.length - 1) / 4) 0) := by
  have hn : 0 < l.length := List.length_pos.mpr h
  obtain ⟨s, hq, hlist⟩ := quick_sort_sorts l h
  have hidx : ∀ idx, idx < l.length → s idx = (l.insertionSort (· ≤ ·)).getD idx 0 := by
    intro idx hidx
    rw [← hlist]
    rw [List.getD_eq_getElem _ _ (by simpa using hidx)]
    simp [List.getElem_map, List.getElem_range]
  have h4 : (l.length - 1) / 4 < l.length := by
    have := Nat.div_le_self (l.length - 1) 4
    omega
  have h2 : (l.length - 1) / 2 < l.length := by
    have := Nat.div_le_self (l.length - 1) 2
    omega
  have h34 : 3 * (l.length - 1) / 4 < l.length := by
    have hmono : 3 * (l.length - 1) / 4 ≤ 4 * (l.length - 1) / 4 :=
      Nat.div_le_div_right (by omega)
    rw [Nat.mul_div_cancel_left _ (by omega)] at hmono
    omega
  refine ⟨?_, ?_, ?_⟩
  · unfold lower_quartile
    rw [hq]
    exact congrArg some (hidx _ h4)
  · unfold median
    rw [hq]
    exact congrArg some (hidx _ h2)
  · unfold upper_quartile
    rw [hq]
    exact congrArg some (hidx _ h34)

end MedianBlur

namespace MedianBlur

/-- C1: for every non-empty byte container of length N, the queries
`lower_quartile`, `median` and `upper_quartile` each return the value at
index `(N-1)/4`, `(N-1)/2` and `3*(N-1)/4` respectively of the container's
contents in ascending sorted order; for `[40, 10, 30, 20, 50]` they return
20, 30 and 40; every length-1 container returns its single element for all
three; and each query's result is invariant under any permutation of the
input. -/
theorem C1_order_statistic_queries (l : List ℕ) (h : l ≠ []) :
    (lower_quartile (asFun l) l.length
        = some ((l.insertionSort (· ≤ ·)).getD ((l.length - 1) / 4) 0) ∧
      median (asFun l) l.length
        = some ((l.insertionSort (· ≤ ·)).getD ((l.length - 1) / 2) 0) ∧
      upper_quartile (asFun l) l.length
        = some ((l.insertionSort (· ≤ ·)).getD (3 * (l.length - 1) / 4) 0)) ∧
    (∀ l' : List ℕ, l'.Perm l →
      lower_quartile (asFun l') l'.length = lower_quartile (asFun l) l.length ∧
      median (asFun l') l'.length = median (asFun l) l.length ∧
      upper_quartile (asFun l') l'.length = upper_quartile (asFun l) l.length) ∧
    (∀ x : ℕ, lower_quartile (asFun [x]) 1 = some x ∧ median (asFun [x]) 1 = some x ∧
      upper_quartile (asFun [x]) 1 = some x) ∧
    (lower_quartile (asFun [40, 10, 30, 20, 50]) 5 = some 20 ∧
      median (asFun [40, 10, 30, 20, 50]) 5 = some 30 ∧
      upper_quartile (asFun [40, 10, 30, 20, 50]) 5 = some 40) := by
  refine ⟨queries_eq_sorted_getD l h, ?_, ?_, ?_⟩
  · intro l' hperm
    have h' : l' ≠ [] := by
      intro hnil
      rw [hnil] at hperm
      exact h (List.Perm.nil_eq hperm).symm
    have hlen : l'.length = l.length := hperm.length_eq
    have hsorteq : l'.insertionSort (· ≤ ·) = l.insertionSort (· ≤ ·) := by
      have hs1 : List.Sorted (· ≤ ·) (l'.insertionSort (· ≤ ·)) :=
        List.sorted_insertionSort (· ≤ ·) l'
      have hs2 : List.Sorted (· ≤ ·) (l.insertionSort (· ≤ ·)) :=
        List.sorted_insertionSort (· ≤ ·) l
      exact List.eq_of_perm_of_sorted
        ((List.perm_insertionSort _ l').trans
          (hperm.trans (List.perm_insertionSort _ l).symm)) hs1 hs2
    obtain ⟨e1, e2, e3⟩ := queries_eq_sorted_getD l' h'
    obtain ⟨f1, f2, f3⟩ := queries_eq_sorted_getD l h
    rw [e1, e2, e3, f1, f2, f3, hsorteq, hlen]
    exact ⟨rfl, rfl, rfl⟩
  · intro x
    obtain ⟨e1, e2, e3⟩ := queries_eq_sorted_getD [x] (by simp)
    refine ⟨?_, ?_, ?_⟩
    · simpa [List.insertionSort, List.orderedInsert] using e1
    · simpa [List.insertionSort, List.orderedInsert] using e2
    · simpa [List.insertionSort, List.orderedInsert] using e3
  · exact ⟨by decide, by decide, by decide⟩

/-- Witness for C1 at the length-5 container of the claim. -/
theorem C1_witness :
    ([40, 10, 30, 20, 50] : List ℕ) ≠ [] ∧
    median (asFun [40, 10, 30, 20, 50]) 5 = some 30 := by
  refine ⟨by decide, ?_⟩
  exact (C1_order_statistic_queries [40, 10, 30, 20, 50] (by decide)).2.2.2.2.1

/-- C3: for every byte container and index range `left ≤ right` in bounds,
`partition` succeeds with a split index `j ∈ [left, right]`, the container
afterwards is a permutation of its original contents, and the value at `j`
is at least every element at `left..j-1` and at most every element at
`j+1..right` (for all inputs, including all-equal containers). -/
theorem C3_partition_correct (l : List ℕ) (left right : ℕ)
    (h1 : left ≤ right) (h2 : right < l.length) :
    ∃ a' j, partition (asFun l) left right = some (a', j) ∧ left ≤ j ∧ j ≤ right ∧
      ((List.range l.length).map a').Perm l ∧
      (∀ k, left ≤ k → k < j → a' k ≤ a' j) ∧
      (∀ k, j < k → k ≤ right → a' j ≤ a' k) := by
  obtain ⟨a', j, hp, hlj, hjr, hpiv, hD, hE, hF, hperm⟩ :=
    partition_spec (asFun l) left right h1
  refine ⟨a', j, hp, hlj, hjr, ?_, hD, fun k hk1 hk2 => le_of_lt (hE k hk1 hk2)⟩
  have hlift : permIco a' (asFun l) 0 l.length := by
    apply permIco_lift a' (asFun l) left (right + 1) 0 l.length (Nat.zero_le _)
      (by omega) (by omega) hperm
    intro k hk
    exact hF k (by omega)
  unfold permIco at hlift
  rw [List.Ico.zero_bot, asFun_map_range] at hlift
  exact hlift

/-- Witness for C3 at an all-equal container. -/
theorem C3_witness :
    (0 : ℕ) ≤ 2 ∧ 2 < ([5, 5, 5] : List ℕ).length ∧
    ∃ a' j, partition (asFun [5, 5, 5]) 0 2 = some (a', j) ∧ 0 ≤ j ∧ j ≤ 2 ∧
      ((List.range ([5, 5, 5] : List ℕ).length).map a').Perm [5, 5, 5] ∧
      (∀ k, 0 ≤ k → k < j → a' k ≤ a' j) ∧
      (∀ k, j < k → k ≤ 2 → a' j ≤ a' k) :=
  ⟨by decide, by decide, C3_partition_correct [5, 5, 5] 0 2 (by decide) (by decide)⟩

/-- C4: `partition` and `quick_sort` terminate on every byte container and
in-bounds index range (equal-valued runs included): with the stated fuel —
an upper bound on the loop iteration count, resp. recursion depth — both
return a result rather than exhausting fuel.  The two scanning loops inside
`partition` are total functions (`scanUp`, `scanDown`), terminating by the
measures used in their definitions. -/
theorem C4_termination (l : List ℕ) (left right : ℕ)
    (h1 : left ≤ right) (h2 : right < l.length) :
    (partition (asFun l) left right).isSome = true ∧
    (quick_sort (right + 1 - left) (asFun l) left right).isSome = true := by
  constructor
  · obtain ⟨a', j, hp, _⟩ := partition_spec (asFun l) left right h1
    rw [hp]
    rfl
  · obtain ⟨a', hq, _⟩ := quick_sort_spec (right + 1 - left) (asFun l) left right (by omega)
    rw [hq]
    rfl

/-- Witness for C4 at an all-equal container. -/
theorem C4_witness :
    (0 : ℕ) ≤ 3 ∧ 3 < ([7, 7, 7, 7] : List ℕ).length ∧
    ((partition (asFun [7, 7, 7, 7]) 0 3).isSome = true ∧
      (quick_sort 4 (asFun [7, 7, 7, 7]) 0 3).isSome = true) :=
  ⟨by decide, by decide, C4_termination [7, 7, 7, 7] 0 3 (by decide) (by decide)⟩

end MedianBlur

namespace MedianBlur

/-- C9: calling `median_blur` with a frame whose channel count is not 1
fails fatally with a diagnostic carrying the actual channel count and the
required count 1, produces no filtered result, and leaves the frame's pixel
data untouched (the fatal outcome carries the frame exactly as passed). -/
theorem C9_channel_guard (frame : IplImage) (h : frame.nChannels ≠ 1) :
    median_blur frame = .fatal frame.nChannels 1 frame := by
  unfold median_blur
  rw [if_pos h]

/-- Witness for C9 at a concrete 3-channel frame. -/
theorem C9_witness :
    (IplImage.mk 2 2 3 6 (fun _ => 9)).nChannels ≠ 1 ∧
    median_blur (IplImage.mk 2 2 3 6 (fun _ => 9))
      = .fatal 3 1 (IplImage.mk 2 2 3 6 (fun _ => 9)) :=
  ⟨by decide, C9_channel_guard (IplImage.mk 2 2 3 6 (fun _ => 9)) (by decide)⟩

theorem blur_fold_preserves (s o : ℕ) :
    ∀ (ps : List (ℕ × ℕ)) (st : Arr × Arr),
      (∀ q ∈ ps, q.1 * s + q.2 ≠ o) →
      (ps.foldl (blurStep s) st).1 o = st.1 o := by
  intro ps
  induction ps with
  | nil => intro st _; rfl
  | cons q qs ih =>
    intro st h
    rw [List.foldl_cons]
    rw [ih _ (fun q' hq' => h q' (List.mem_cons_of_mem q hq'))]
    unfold blurStep
    exact write_other _ _ _ _ (Ne.symm (h q (List.mem_cons_self q qs)))

theorem offset_inj (s x x' y y' : ℕ) (hs : 0 < s) (hx : x < s) (hx' : x' < s)
    (h : y * s + x = y' * s + x') : y = y' ∧ x = x' := by
  have e1 : (y * s + x) / s = y := by
    rw [mul_comm, Nat.mul_add_div hs, Nat.div_eq_of_lt hx, add_zero]
  have e1' : (y' * s + x') / s = y' := by
    rw [mul_comm, Nat.mul_add_div hs, Nat.div_eq_of_lt hx', add_zero]
  have hy : y = y' := by rw [← e1, ← e1', h]
  subst hy
  exact ⟨rfl, by omega⟩

theorem mem_interiorPixels (frame : IplImage) (q : ℕ × ℕ) :
    q ∈ interiorPixels frame ↔
      (BLUR_RADIUS ≤ q.1 ∧ q.1 < frame.height - BLUR_RADIUS ∧
       BLUR_RADIUS ≤ q.2 ∧ q.2 < frame.width - BLUR_RADIUS) := by
  unfold interiorPixels
  constructor
  · intro hq
    obtain ⟨y, hy, hx⟩ := List.mem_flatMap.mp hq
    obtain ⟨x, hxmem, hxeq⟩ := List.mem_map.mp hx
    have hy' := List.Ico.mem.mp hy
    have hx' := List.Ico.mem.mp hxmem
    rw [← hxeq]
    exact ⟨hy'.1, hy'.2, hx'.1, hx'.2⟩
  · intro ⟨hb1, hb2, hb3, hb4⟩
    apply List.mem_flatMap.mpr
    refine ⟨q.1, List.Ico.mem.mpr ⟨hb1, hb2⟩, ?_⟩
    apply List.mem_map.mpr
    exact ⟨q.2, List.Ico.mem.mpr ⟨hb3, hb4⟩, rfl⟩

/-- C10: on every single-channel frame at least 11 pixels wide and tall
(stride at least the row width, per the frame data model), `median_blur`
leaves every border pixel — within `BLUR_RADIUS = 5` of any edge — holding
its original value. -/
theorem C10_border_untouched (frame : IplImage)
    (h1 : frame.nChannels = 1) (h2 : 11 ≤ frame.width) (h3 : 11 ≤ frame.height)
    (h4 : frame.width ≤ frame.widthStep)
    (x y : ℕ) (hx : x < frame.width) (hy : y < frame.height)
    (hb : x < BLUR_RADIUS ∨ frame.width - BLUR_RADIUS ≤ x ∨
          y < BLUR_RADIUS ∨ frame.height - BLUR_RADIUS ≤ y) :
    ∃ f', median_blur frame = .ok f' ∧
      f'.imageData (y * frame.widthStep + x) = frame.imageData (y * frame.widthStep + x) := by
  have hch : ¬ frame.nChannels ≠ 1 := by simp [h1]
  refine ⟨{ frame with imageData :=
      ((interiorPixels frame).foldl (blurStep frame.widthStep)
        (frame.imageData, fun _ => 0)).1 }, ?_, ?_⟩
  · unfold median_blur
    rw [if_neg hch]
  · show ((interiorPixels frame).foldl (blurStep frame.widthStep)
      (frame.imageData, fun _ => 0)).1 (y * frame.widthStep + x)
      = frame.imageData (y * frame.widthStep + x)
    apply blur_fold_preserves
    intro q hq heq
    have hmem := (mem_interiorPixels frame q).mp hq
    have hs : 0 < frame.widthStep := by omega
    have hinj := offset_inj frame.widthStep q.2 x q.1 y hs
      (by unfold BLUR_RADIUS at hmem; omega) (by omega) heq
    unfold BLUR_RADIUS at hmem hb
    omega

/-- Witness for C10 at a concrete 11×11 single-channel frame and the corner
border pixel (0, 0). -/
theorem C10_witness :
    ((IplImage.mk 11 11 1 11 (fun _ => 7)).nChannels = 1 ∧
      11 ≤ (IplImage.mk 11 11 1 11 (fun _ => 7)).width ∧
      (0 : ℕ) < 11 ∧ (0 : ℕ) < BLUR_RADIUS) ∧
    ∃ f', median_blur (IplImage.mk 11 11 1 11 (fun _ => 7)) = .ok f' ∧
      f'.imageData 0 = (IplImage.mk 11 11 1 11 (fun _ => 7)).imageData 0 := by
  refine ⟨⟨rfl, by decide, by decide, by decide⟩, ?_⟩
  have := C10_border_untouched (IplImage.mk 11 11 1 11 (fun _ => 7)) rfl
    (by decide) (by decide) (by decide) 0 0 (by decide) (by decide)
    (Or.inl (by decide))
  simpa using this

set_option maxRecDepth 10000 in
/-- C2: the window-gathering loops of `median_blur` run `yo` and `xo` from 0
to `num_offsets` INCLUSIVE — 144 iterations over a 12×12 window instead of
the 121 samples of the 11×11 window — writing buffer indices up to 132, past
the `num_elements = 121` bytes the code itself allocates for `array_list`
(13 of the 144 stores are out of bounds), and reading samples offset +6 from
the window centre. -/
theorem C2_gather_bug :
    windowPairs.length = 144 ∧
    num_elements = 121 ∧
    ((11, 11) ∈ windowPairs) ∧
    num_offsets * 11 + 11 = 132 ∧
    ((windowPairs.map fun q => num_offsets * q.1 + q.2).filter
      (fun idx => num_elements ≤ idx)).length = 13 ∧
    (∀ x y : ℕ, y + 11 - BLUR_RADIUS = y + 6 ∧ x + 11 - BLUR_RADIUS = x + 6) := by
  refine ⟨by decide, by decide, by decide, by decide, by decide, ?_⟩
  intro x y
  unfold BLUR_RADIUS
  omega

end MedianBlur

namespace Calibration

open MedianBlur (Arr write write_same write_other offset_inj)

theorem range_split (n w : ℕ) (h : w < n) :
    List.range n = List.Ico 0 w ++ w :: List.Ico (w + 1) n := by
  rw [← List.Ico.zero_bot,
    ← List.Ico.append_consecutive (Nat.zero_le w) (le_of_lt h),
    List.Ico.eq_cons h]

theorem chanWrites_miss : ∀ (ws : List ℕ) (base : ℕ) (d : Arr) (o : ℕ),
    (∀ w ∈ ws, o ≠ base + w) → chanWrites base ws d o = d o := by
  intro ws
  induction ws with
  | nil => intro base d o _; rfl
  | cons w ws ih =>
    intro base d o h
    show chanWrites base ws (write d (base + w) (d (base + w) % 256 / 4)) o = d o
    rw [ih base _ o (fun w' hw' => h w' (List.mem_cons_of_mem w hw'))]
    exact write_other _ _ _ _ (h w (List.mem_cons_self w ws))

theorem chanWrites_hit (c w0 base : ℕ) (d : Arr) (h : w0 < c) :
    chanWrites base (List.range c) d (base + w0) = d (base + w0) % 256 / 4 := by
  rw [range_split c w0 h]
  unfold chanWrites
  rw [List.foldl_append, List.foldl_cons]
  show chanWrites base (List.Ico (w0 + 1) c)
    (write (chanWrites base (List.Ico 0 w0) d) (base + w0)
      ((chanWrites base (List.Ico 0 w0) d) (base + w0) % 256 / 4)) (base + w0) = _
  rw [chanWrites_miss (List.Ico (w0 + 1) c) base _ (base + w0)
    (fun w hw => by have := List.Ico.mem.mp hw; omega)]
  rw [write_same]
  rw [chanWrites_miss (List.Ico 0 w0) base d (base + w0)
    (fun w hw => by have := List.Ico.mem.mp hw; omega)]

theorem rowWrites_miss (s c : ℕ) (rx ry regw regh : ℤ) (y : ℕ) (o : ℕ) :
    ∀ (xs : List ℕ) (d : Arr),
      (∀ x ∈ xs, in_box (x : ℤ) (y : ℤ) rx ry regw regh = true ∨
        ∀ w, w < c → o ≠ y * s + x * c + w) →
      rowWrites s c rx ry regw regh y xs d o = d o := by
  intro xs
  induction xs with
  | nil => intro d _; rfl
  | cons x xs ih =>
    intro d h
    show rowWrites s c rx ry regw regh y xs
      (if !(in_box (x : ℤ) (y : ℤ) rx ry regw regh) then
        chanWrites (y * s + x * c) (List.range c) d
      else d) o = d o
    rw [ih _ (fun x' hx' => h x' (List.mem_cons_of_mem x hx'))]
    rcases h x (List.mem_cons_self x xs) with hb | hmiss
    · rw [hb]; rfl
    · by_cases hb : in_box (x : ℤ) (y : ℤ) rx ry regw regh = true
      · rw [hb]; rfl
      · have hbf : in_box (x : ℤ) (y : ℤ) rx ry regw regh = false := by
          simpa using hb
        rw [hbf]
        show chanWrites (y * s + x * c) (List.range c) d o = d o
        exact chanWrites_miss (List.range c) (y * s + x * c) d o
          (fun w hw => hmiss w (List.mem_range.mp hw))

theorem rowWrites_hit (s c : ℕ) (rx ry regw regh : ℤ) (y x0 w0 width : ℕ) (d : Arr)
    (hx0 : x0 < width) (hw0 : w0 < c)
    (hb : in_box (x0 : ℤ) (y : ℤ) rx ry regw regh = false) :
    rowWrites s c rx ry regw regh y (List.range width) d (y * s + x0 * c + w0)
      = d (y * s + x0 * c + w0) % 256 / 4 := by
  have hmissfun : ∀ (lst : List ℕ), (∀ x ∈ lst, x ≠ x0) →
      ∀ d' : Arr, rowWrites s c rx ry regw regh y lst d' (y * s + x0 * c + w0)
        = d' (y * s + x0 * c + w0) := by
    intro lst hlst d'
    apply rowWrites_miss
    intro x hx
    right
    intro w hw heq
    have heq' : x0 * c + w0 = x * c + w := by omega
    have := offset_inj c w0 w x0 x (by omega) hw0 hw heq'
    exact hlst x hx this.1.symm
  rw [range_split width x0 hx0]
  unfold rowWrites
  rw [List.foldl_append, List.foldl_cons]
  show rowWrites s c rx ry regw regh y (List.Ico (x0 + 1) width)
      (if !(in_box (x0 : ℤ) (y : ℤ) rx ry regw regh) then
        chanWrites (y * s + x0 * c) (List.range c)
          (rowWrites s c rx ry regw regh y (List.Ico 0 x0) d)
      else rowWrites s c rx ry regw regh y (List.Ico 0 x0) d) (y * s + x0 * c + w0) = _
  rw [hmissfun (List.Ico (x0 + 1) width)
    (fun x hx => by have := List.Ico.mem.mp hx; omega) _]
  rw [hb]
  show chanWrites (y * s + x0 * c) (List.range c)
    (rowWrites s c rx ry regw regh y (List.Ico 0 x0) d) (y * s + x0 * c + w0) = _
  have hassoc : y * s + x0 * c + w0 = (y * s + x0 * c) + w0 := by omega
  rw [hassoc, chanWrites_hit c w0 (y * s + x0 * c) _ hw0]
  rw [hmissfun (List.Ico 0 x0) (fun x hx => by have := List.Ico.mem.mp hx; omega) d]

theorem allWrites_miss (width s c : ℕ) (rx ry regw regh : ℤ) (o : ℕ) :
    ∀ (ys : List ℕ) (d : Arr),
      (∀ y ∈ ys, ∀ x, x < width →
        in_box (x : ℤ) (y : ℤ) rx ry regw regh = true ∨
        ∀ w, w < c → o ≠ y * s + x * c + w) →
      allWrites width s c rx ry regw regh ys d o = d o := by
  intro ys
  induction ys with
  | nil => intro d _; rfl
  | cons y ys ih =>
    intro d h
    show allWrites width s c rx ry regw regh ys
      (rowWrites s c rx ry regw regh y (List.range width) d) o = d o
    rw [ih _ (fun y' hy' => h y' (List.mem_cons_of_mem y hy'))]
    apply rowWrites_miss
    intro x hx
    exact h y (List.mem_cons_self y ys) x (List.mem_range.mp hx)

theorem allWrites_hit (width height s c : ℕ) (rx ry regw regh : ℤ)
    (x0 y0 w0 : ℕ) (d : Arr)
    (hstride : width * c ≤ s)
    (hx0 : x0 < width) (hy0 : y0 < height) (hw0 : w0 < c)
    (hb : in_box (x0 : ℤ) (y0 : ℤ) rx ry regw regh = false) :
    allWrites width s c rx ry regw regh (List.range height) d (y0 * s + x0 * c + w0)
      = d (y0 * s + x0 * c + w0) % 256 / 4 := by
  have hchan : x0 * c + w0 < s := by
    have h2 := Nat.mul_le_mul_right c (show x0 + 1 ≤ width by omega)
    rw [Nat.succ_mul] at h2
    omega
  have hmissfun : ∀ (lst : List ℕ), (∀ y ∈ lst, y ≠ y0) →
      ∀ d' : Arr, allWrites width s c rx ry regw regh lst d' (y0 * s + x0 * c + w0)
        = d' (y0 * s + x0 * c + w0) := by
    intro lst hlst d'
    apply allWrites_miss
    intro y hy x hx
    right
    intro w hw heq
    have hxw : x * c + w < s := by
      have h2 := Nat.mul_le_mul_right c (show x + 1 ≤ width by omega)
      rw [Nat.succ_mul] at h2
      omega
    have heq' : y0 * s + (x0 * c + w0) = y * s + (x * c + w) := by omega
    have := offset_inj s (x0 * c + w0) (x * c + w) y0 y (by omega) hchan hxw heq'
    exact hlst y hy this.1.symm
  rw [range_split height y0 hy0]
  unfold allWrites
  rw [List.foldl_append, List.foldl_cons]
  show allWrites width s c rx ry regw regh (List.Ico (y0 + 1) height)
      (rowWrites s c rx ry regw regh y0 (List.range width)
        (allWrites width s c rx ry regw regh (List.Ico 0 y0) d)) (y0 * s + x0 * c + w0) = _
  rw [hmissfun (List.Ico (y0 + 1) height)
    (fun y hy => by have := List.Ico.mem.mp hy; omega) _]
  rw [rowWrites_hit s c rx ry regw regh y0 x0 w0 width _ hx0 hw0 hb]
  rw [hmissfun (List.Ico 0 y0) (fun y hy => by have := List.Ico.mem.mp hy; omega) d]

end Calibration

namespace Calibration

open MedianBlur (Arr write offset_inj)

/-- C7: `overlay_frame` mutates the frame in place so that every pixel
outside the box (per `in_box`: centre `reg_x, reg_y`, half-extents
`reg_width, reg_height`, strict bounds) has each channel byte replaced by
its original value divided by 4 (integer truncation), while every pixel
inside the box is untouched; for a box containing every pixel the frame is
unchanged, and for a box of zero extent every pixel's channel bytes become
`original / 4`.  Stride at least `width * nChannels` and byte-valued data
are the frame data model's invariants. -/
theorem C7_overlay (frame : IplImage) (reg_x reg_y reg_height reg_width : ℤ)
    (hs : frame.width * frame.nChannels ≤ frame.widthStep)
    (hbytes : ∀ i, frame.imageData i < 256) :
    (∀ x y w, x < frame.width → y < frame.height → w < frame.nChannels →
      (overlay_frame frame reg_x reg_y reg_height reg_width).imageData
          (y * frame.widthStep + x * frame.nChannels + w)
        = if in_box (x : ℤ) (y : ℤ) reg_x reg_y reg_width reg_height then
            frame.imageData (y * frame.widthStep + x * frame.nChannels + w)
          else frame.imageData (y * frame.widthStep + x * frame.nChannels + w) / 4) ∧
    ((∀ x y : ℕ, x < frame.width → y < frame.height →
        in_box (x : ℤ) (y : ℤ) reg_x reg_y reg_width reg_height = true) →
      ∀ x y w, x < frame.width → y < frame.height → w < frame.nChannels →
        (overlay_frame frame reg_x reg_y reg_height reg_width).imageData
            (y * frame.widthStep + x * frame.nChannels + w)
          = frame.imageData (y * frame.widthStep + x * frame.nChannels + w)) ∧
    (reg_width = 0 → reg_height = 0 →
      ∀ x y w, x < frame.width → y < frame.height → w < frame.nChannels →
        (overlay_frame frame reg_x reg_y reg_height reg_width).imageData
            (y * frame.widthStep + x * frame.nChannels + w)
          = frame.imageData (y * frame.widthStep + x * frame.nChannels + w) / 4) := by
  have main : ∀ x y w, x < frame.width → y < frame.height → w < frame.nChannels →
      (overlay_frame frame reg_x reg_y reg_height reg_width).imageData
          (y * frame.widthStep + x * frame.nChannels + w)
        = if in_box (x : ℤ) (y : ℤ) reg_x reg_y reg_width reg_height then
            frame.imageData (y * frame.widthStep + x * frame.nChannels + w)
          else frame.imageData (y * frame.widthStep + x * frame.nChannels + w) / 4 := by
    intro x y w hx hy hw
    show allWrites frame.width frame.widthStep frame.nChannels reg_x reg_y
        reg_width reg_height (List.range frame.height) frame.imageData
        (y * frame.widthStep + x * frame.nChannels + w) = _
    by_cases hb : in_box (x : ℤ) (y : ℤ) reg_x reg_y reg_width reg_height = true
    · rw [if_pos hb]
      apply allWrites_miss
      intro y' hy' x' hx'
      by_cases hb' : in_box (x' : ℤ) (y' : ℤ) reg_x reg_y reg_width reg_height = true
      · exact Or.inl hb'
      · right
        intro w' hw' heq
        have hchan : x * frame.nChannels + w < frame.widthStep := by
          have h2 := Nat.mul_le_mul_right frame.nChannels
            (show x + 1 ≤ frame.width by omega)
          rw [Nat.succ_mul] at h2
          omega
        have hchan' : x' * frame.nChannels + w' < frame.widthStep := by
          have h2 := Nat.mul_le_mul_right frame.nChannels
            (show x' + 1 ≤ frame.width by omega)
          rw [Nat.succ_mul] at h2
          omega
        have heq1 : y * frame.widthStep + (x * frame.nChannels + w)
            = y' * frame.widthStep + (x' * frame.nChannels + w') := by omega
        have hyy := offset_inj frame.widthStep (x * frame.nChannels + w)
          (x' * frame.nChannels + w') y y' (by omega) hchan hchan' heq1
        have hxx := offset_inj frame.nChannels w w' x x' (by omega) hw hw'
          (by omega)
        rw [← hxx.1, ← hyy.1] at hb'
        exact hb' hb
    · have hbf : in_box (x : ℤ) (y : ℤ) reg_x reg_y reg_width reg_height = false := by
        simpa using hb
      rw [if_neg (by simp [hbf])]
      rw [allWrites_hit frame.width frame.height frame.widthStep frame.nChannels
        reg_x reg_y reg_width reg_height x y w frame.imageData hs hx hy hw hbf]
      rw [Nat.mod_eq_of_lt (hbytes _)]
  refine ⟨main, ?_, ?_⟩
  · intro hcov x y w hx hy hw
    rw [main x y w hx hy hw, if_pos (hcov x y hx hy)]
  · intro hrw hrh x y w hx hy hw
    have hbf : in_box (x : ℤ) (y : ℤ) reg_x reg_y reg_width reg_height = false := by
      subst hrw
      simp [in_box]
      omega
    rw [main x y w hx hy hw, if_neg (by simp [hbf])]

/-- Witness for C7 at a concrete 2×2 two-channel frame. -/
theorem C7_witness :
    ((IplImage.mk 2 2 2 5 (fun off => (100 + off) % 256)).width
        * (IplImage.mk 2 2 2 5 (fun off => (100 + off) % 256)).nChannels
      ≤ (IplImage.mk 2 2 2 5 (fun off => (100 + off) % 256)).widthStep) ∧
    (overlay_frame (IplImage.mk 2 2 2 5 (fun off => (100 + off) % 256)) 0 0 0 0).imageData
        (1 * 5 + 1 * 2 + 1)
      = (IplImage.mk 2 2 2 5 (fun off => (100 + off) % 256)).imageData (1 * 5 + 1 * 2 + 1) / 4 := by
  refine ⟨by decide, ?_⟩
  exact ((C7_overlay (IplImage.mk 2 2 2 5 (fun off => (100 + off) % 256)) 0 0 0 0
    (by decide) (fun i => Nat.mod_lt _ (by omega))).2.2 rfl rfl 1 1 1
    (by decide) (by decide) (by decide))

end Calibration

namespace Calibration

set_option maxRecDepth 10000 in
theorem band_min_formula : ∀ v : ℕ, v < 256 → band_min v = 3 * v / 5 := by decide

set_option maxRecDepth 10000 in
theorem band_max_formula : ∀ v : ℕ, v < 256 →
    band_max v = (if v ∈ ([45, 85, 90, 165, 170, 175, 180] : List ℕ)
      then (7 * v / 5 - 1) % 256 else (7 * v / 5) % 256) := by decide

set_option maxRecDepth 10000 in
theorem band_min_le_band_max : ∀ m : ℕ, m < 183 → band_min m ≤ band_max m := by decide

theorem sum_of_const {v : ℕ} : ∀ l : List ℕ, (∀ u ∈ l, u = v) → l.sum = l.length * v := by
  intro l
  induction l with
  | nil => intro _; simp
  | cons x xs ih =>
    intro h
    rw [List.sum_cons, List.length_cons, ih (fun u hu => h u (List.mem_cons_of_mem x hu)),
      h x (List.mem_cons_self x xs), Nat.succ_mul]
    omega

theorem avg_const {v : ℕ} (l : List ℕ) (hne : l ≠ []) (h : ∀ u ∈ l, u = v) :
    avg l = v := by
  unfold avg
  rw [sum_of_const l h, Nat.mul_comm]
  exact Nat.mul_div_cancel v (List.length_pos.mpr hne)

theorem length_flatMap_const {α β : Type} (n : ℕ) :
    ∀ (l : List α) (f : α → List β), (∀ a ∈ l, (f a).length = n) →
      (l.flatMap f).length = l.length * n := by
  intro l
  induction l with
  | nil => intro f _; simp
  | cons x xs ih =>
    intro f h
    rw [List.flatMap_cons, List.length_append, List.length_cons,
      ih f (fun a ha => h a (List.mem_cons_of_mem x ha)),
      h x (List.mem_cons_self x xs), Nat.succ_mul]
    omega

theorem intRange_length (lo hi : ℤ) : (intRange lo hi).length = (hi - lo).toNat := by
  unfold intRange
  rw [List.length_map, List.length_range]

theorem sample_channel_length (frame : IplImage) (rx ry rh rw : ℤ) (c : ℕ) :
    (sample_channel frame rx ry rh rw c).length
      = (ry + rh - (ry - rh)).toNat * (rx + rw - (rx - rw)).toNat := by
  unfold sample_channel
  rw [length_flatMap_const ((rx + rw - (rx - rw)).toNat)]
  · rw [intRange_length]
  · intro a _
    rw [List.length_map, intRange_length]

theorem sample_channel_ne_nil (frame : IplImage) (rx ry rh rw : ℤ) (c : ℕ)
    (hrh : 0 < rh) (hrw : 0 < rw) :
    sample_channel frame rx ry rh rw c ≠ [] := by
  apply List.ne_nil_of_length_pos
  rw [sample_channel_length]
  have h1 : 0 < (ry + rh - (ry - rh)).toNat := by omega
  have h2 : 0 < (rx + rw - (rx - rw)).toNat := by omega
  exact Nat.mul_pos h1 h2

end Calibration

namespace Calibration

set_option maxRecDepth 10000 in
/-- Counterexample to C6 as stated: for a sampled region whose channels are
uniformly 165, the stored `h_max` is 230, not `⌊165 · 1.4⌋ = 231` — the
double `1 + 0.4` is slightly below 1.4, and at 165 rounding the product
crosses the integer 231. -/
theorem C6_counterexample :
    (final_calibration (IplImage.mk 4 4 3 12 (fun _ => 165)) 2 2 1 1).h_max = 230 ∧
    7 * 165 / 5 = 231 ∧ (230 : ℕ) ≠ 231 :=
  ⟨by decide, by decide, by decide⟩

/-- C6 (amended): for a sampled region whose three channels uniformly hold
`v ≤ 255`, the mean is `v`, each channel's min is `⌊0.6 v⌋` (so the claimed
min formula holds for every `v`), and each channel's max is the IEEE-double
product `v · (1+0.4)` truncated to 8 bits mod 256 — which equals
`⌊1.4 v⌋ mod 256` for every `v` except `v ∈ {45, 85, 90, 165, 170, 175,
180}`, where double rounding yields `⌊1.4 v⌋ − 1`; at `v = 200` the product
280 wraps to 24 in the 8-bit store (the conversion above 255 being
undefined in C, reproduced as the reference platform's wrap). -/
theorem C6_interactive_uniform_bands (v : ℕ) (hv : v < 256) (frame : IplImage)
    (rx ry rh rw : ℤ) (hrh : 0 < rh) (hrw : 0 < rw)
    (huni : ∀ c, c < 3 → ∀ u ∈ sample_channel frame rx ry rh rw c, u = v) :
    avg (sample_channel frame rx ry rh rw 0) = v ∧
    ((final_calibration frame rx ry rh rw).h_min = 3 * v / 5 ∧
     (final_calibration frame rx ry rh rw).s_min = 3 * v / 5 ∧
     (final_calibration frame rx ry rh rw).v_min = 3 * v / 5) ∧
    ((final_calibration frame rx ry rh rw).h_max
        = (if v ∈ ([45, 85, 90, 165, 170, 175, 180] : List ℕ)
           then (7 * v / 5 - 1) % 256 else (7 * v / 5) % 256) ∧
     (final_calibration frame rx ry rh rw).s_max
        = (if v ∈ ([45, 85, 90, 165, 170, 175, 180] : List ℕ)
           then (7 * v / 5 - 1) % 256 else (7 * v / 5) % 256) ∧
     (final_calibration frame rx ry rh rw).v_max
        = (if v ∈ ([45, 85, 90, 165, 170, 175, 180] : List ℕ)
           then (7 * v / 5 - 1) % 256 else (7 * v / 5) % 256)) ∧
    (band_min 200 = 120 ∧ band_max 200 = 24 ∧ 7 * 200 / 5 = 280) := by
  have havg : ∀ c, c < 3 → avg (sample_channel frame rx ry rh rw c) = v := fun c hc =>
    avg_const _ (sample_channel_ne_nil frame rx ry rh rw c hrh hrw) (huni c hc)
  have eh_min : (final_calibration frame rx ry rh rw).h_min
      = band_min (avg (sample_channel frame rx ry rh rw 0)) := rfl
  have es_min : (final_calibration frame rx ry rh rw).s_min
      = band_min (avg (sample_channel frame rx ry rh rw 1)) := rfl
  have ev_min : (final_calibration frame rx ry rh rw).v_min
      = band_min (avg (sample_channel frame rx ry rh rw 2)) := rfl
  have eh_max : (final_calibration frame rx ry rh rw).h_max
      = band_max (avg (sample_channel frame rx ry rh rw 0)) := rfl
  have es_max : (final_calibration frame rx ry rh rw).s_max
      = band_max (avg (sample_channel frame rx ry rh rw 1)) := rfl
  have ev_max : (final_calibration frame rx ry rh rw).v_max
      = band_max (avg (sample_channel frame rx ry rh rw 2)) := rfl
  refine ⟨havg 0 (by omega), ⟨?_, ?_, ?_⟩, ⟨?_, ?_, ?_⟩, by decide, by decide, by decide⟩
  · rw [eh_min, havg 0 (by omega), band_min_formula v hv]
  · rw [es_min, havg 1 (by omega), band_min_formula v hv]
  · rw [ev_min, havg 2 (by omega), band_min_formula v hv]
  · rw [eh_max, havg 0 (by omega), band_max_formula v hv]
  · rw [es_max, havg 1 (by omega), band_max_formula v hv]
  · rw [ev_max, havg 2 (by omega), band_max_formula v hv]

set_option maxRecDepth 10000 in
/-- Witness for the amended C6 at the uniform value 165. -/
theorem C6_witness :
    ((165 : ℕ) < 256 ∧ (0 : ℤ) < 1) ∧
    (final_calibration (IplImage.mk 4 4 3 12 (fun _ => 165)) 2 2 1 1).h_max
      = (if (165 : ℕ) ∈ ([45, 85, 90, 165, 170, 175, 180] : List ℕ)
         then (7 * 165 / 5 - 1) % 256 else (7 * 165 / 5) % 256) := by
  refine ⟨⟨by decide, by decide⟩, ?_⟩
  exact (C6_interactive_uniform_bands 165 (by decide)
    (IplImage.mk 4 4 3 12 (fun _ => 165)) 2 2 1 1 (by decide) (by decide)
    (by decide)).2.2.1.1

set_option maxRecDepth 10000 in
/-- Counterexample to C5 as stated: `final_calibration` over a region whose
channels are uniformly 200 produces a band with `done = true` but
`h_min = 120 > h_max = 24` (the widened max overflows the 8-bit store). -/
theorem C5_counterexample :
    (final_calibration (IplImage.mk 4 4 3 12 (fun _ => 200)) 2 2 1 1).done = true ∧
    (final_calibration (IplImage.mk 4 4 3 12 (fun _ => 200)) 2 2 1 1).h_min = 120 ∧
    (final_calibration (IplImage.mk 4 4 3 12 (fun _ => 200)) 2 2 1 1).h_max = 24 ∧
    ¬((final_calibration (IplImage.mk 4 4 3 12 (fun _ => 200)) 2 2 1 1).h_min
      ≤ (final_calibration (IplImage.mk 4 4 3 12 (fun _ => 200)) 2 2 1 1).h_max) :=
  ⟨by decide, by decide, by decide, by decide⟩

/-- C5 (amended): `generic_calibration` always yields `done = true` and
`min ≤ max` on every channel; `final_calibration` yields `done = true` and
satisfies `min ≤ max` on every channel whenever each channel's mean is at
most 182 (so that `mean × 1.4` stays below 256); for larger means the 8-bit
wrap of the widened max violates the invariant (see the counterexample at
uniform 200). -/
theorem C5_band_invariant :
    (∀ c0 : calibration_t,
      (generic_calibration c0).done = true ∧
      (generic_calibration c0).h_min ≤ (generic_calibration c0).h_max ∧
      (generic_calibration c0).s_min ≤ (generic_calibration c0).s_max ∧
      (generic_calibration c0).v_min ≤ (generic_calibration c0).v_max) ∧
    (∀ (frame : IplImage) (rx ry rh rw : ℤ),
      avg (sample_channel frame rx ry rh rw 0) ≤ 182 →
      avg (sample_channel frame rx ry rh rw 1) ≤ 182 →
      avg (sample_channel frame rx ry rh rw 2) ≤ 182 →
      (final_calibration frame rx ry rh rw).done = true ∧
      (final_calibration frame rx ry rh rw).h_min
        ≤ (final_calibration frame rx ry rh rw).h_max ∧
      (final_calibration frame rx ry rh rw).s_min
        ≤ (final_calibration frame rx ry rh rw).s_max ∧
      (final_calibration frame rx ry rh rw).v_min
        ≤ (final_calibration frame rx ry rh rw).v_max) := by
  constructor
  · intro c0
    refine ⟨rfl, ?_, ?_, ?_⟩
    · show (0 : ℕ) ≤ 25
      decide
    · show (10 : ℕ) ≤ 150
      decide
    · show (60 : ℕ) ≤ 255
      decide
  · intro frame rx ry rh rw h0 h1 h2
    refine ⟨rfl, ?_, ?_, ?_⟩
    · exact band_min_le_band_max (avg (sample_channel frame rx ry rh rw 0)) (by omega)
    · exact band_min_le_band_max (avg (sample_channel frame rx ry rh rw 1)) (by omega)
    · exact band_min_le_band_max (avg (sample_channel frame rx ry rh rw 2)) (by omega)

set_option maxRecDepth 10000 in
/-- Witness for the amended C5: a concrete band record for the generic path
and a uniform-100 frame for the interactive path. -/
theorem C5_witness :
    ((generic_calibration (calibration_t.mk 0 0 0 0 0 0 false (0, 0, 0) (0, 0, 0))).done
        = true ∧
      (generic_calibration (calibration_t.mk 0 0 0 0 0 0 false (0, 0, 0) (0, 0, 0))).h_min
        ≤ (generic_calibration (calibration_t.mk 0 0 0 0 0 0 false (0, 0, 0) (0, 0, 0))).h_max) ∧
    (avg (sample_channel (IplImage.mk 4 4 3 12 (fun _ => 100)) 2 2 1 1 0) ≤ 182 ∧
      (final_calibration (IplImage.mk 4 4 3 12 (fun _ => 100)) 2 2 1 1).h_min
        ≤ (final_calibration (IplImage.mk 4 4 3 12 (fun _ => 100)) 2 2 1 1).h_max) := by
  constructor
  · have h := (C5_band_invariant.1 (calibration_t.mk 0 0 0 0 0 0 false (0, 0, 0) (0, 0, 0)))
    exact ⟨h.1, h.2.1⟩
  · have h := C5_band_invariant.2 (IplImage.mk 4 4 3 12 (fun _ => 100)) 2 2 1 1
      (by decide) (by decide) (by decide)
    exact ⟨by decide, h.2.1⟩

end Calibration

namespace Calibration

theorem calibrate_loop_none_aux (capture : ℕ → Option IplImage) (keyq : ℕ → Bool)
    (h : ∀ t, capture t = none) :
    ∀ n timer st, 90 - timer ≤ n → st.frame = none →
      (calibrate_loop capture keyq timer st).frame = none := by
  intro n
  induction n with
  | zero =>
    intro timer st hle hf
    rw [calibrate_loop, if_neg (by omega)]
    exact hf
  | succ n ih =>
    intro timer st hle hf
    rw [calibrate_loop]
    by_cases hc : keyq timer = false ∧ timer < 90
    · rw [if_pos hc, h timer]
      exact ih (timer + 1) { st with frame := none } (by omega) rfl
    · rw [if_neg hc]
      exact hf

/-- C8: when the capture stream yields no frame on any poll, the `calibrate`
acquisition loop ends with a NULL frame, and `calibrate` reaches the
post-loop `cvCvtColor` / `final_calibration` stage with that NULL frame —
there is no error report and no calibration is produced; the model marks the
undefined call on the NULL frame as `none`. -/
theorem C8_no_frame_reaches_conversion (bgr2hsv : IplImage → IplImage)
    (capture : ℕ → Option IplImage) (keyq : ℕ → Bool)
    (h : ∀ t, capture t = none) :
    (calibrate_loop capture keyq 0 ⟨none, 0, 0, 0, 0⟩).frame = none ∧
    calibrate bgr2hsv capture keyq = none := by
  have hfr := calibrate_loop_none_aux capture keyq h 90 0 ⟨none, 0, 0, 0, 0⟩
    (by omega) rfl
  refine ⟨hfr, ?_⟩
  unfold calibrate
  rcases hst : calibrate_loop capture keyq 0 ⟨none, 0, 0, 0, 0⟩ with ⟨f, rx, ry, rh, rw⟩
  rw [hst] at hfr
  have hfn : f = none := hfr
  subst hfn
  rfl

/-- Witness for C8: the always-empty capture stream. -/
theorem C8_witness :
    ((fun _ : ℕ => (none : Option IplImage)) 0 = none) ∧
    calibrate id (fun _ => none) (fun _ => false) = none :=
  ⟨rfl, (C8_no_frame_reaches_conversion id (fun _ => none) (fun _ => false)
    (fun _ => rfl)).2⟩

end Calibration
